import Mathlib

/- Verification development for the changelist reconciliation engine of
   perfarce (a Mercurial <-> Perforce bridge, src/perfarce.py).

   Shallow embedding conventions:
   * The Mercurial repository backend (commit graph, status/diff, copy
     tracing, manifests) is an external collaborator; it is modelled as
     function fields on the `Repo` structure.  Revisions are natural
     numbers (revlog order: parents of a revision have smaller numbers);
     a revision's 40-hex identifier is `hex40` of that number.
   * The p4 depot state relevant to the engine (pending/submitted
     changelists for the client) is modelled by `P4State`.
   * Python bytes strings are Lean `String`s; `None`/raised lookups are
     `Option`/`Except`.  The engine functions (`parsenodes`, `find`,
     `_readp4stat`, `_pushcommon`, the push classification loop, the
     pull per-changelist step) are translated line by line from the
     source. -/

/-- Lowercase hex digit test, models the regex character class [0-9a-f]. -/
def isHexLower (c : Char) : Bool :=
  (decide ('0' ≤ c) && decide (c ≤ '9')) || (decide ('a' ≤ c) && decide (c ≤ 'f'))

/-- The sixteen lowercase hex digit characters. -/
def hexCharList : List Char := "0123456789abcdef".data

/-- Hex digit character for a value below 16. -/
def hexChar (d : Nat) : Char := hexCharList.getD d '0'

/-- The 40-character lowercase hex form of a revision identifier
    (Mercurial node.hex of a 160-bit hash, big-endian digits). -/
def hex40 (n : Nat) : String :=
  String.mk (((List.range 40).reverse).map (fun i => hexChar (n / 16 ^ i % 16)))

/-- Drop an expected prefix from a character list; `none` if it does not
    start with that prefix. -/
def dropPref : List Char → List Char → Option (List Char)
  | [], cs => some cs
  | _ :: _, [] => none
  | p :: ps, c :: cs => if c == p then dropPref ps cs else none

/-- Take exactly `k` lowercase hex characters; `none` if fewer are available. -/
def takeHexN : Nat → List Char → Option (List Char × List Char)
  | 0, cs => some ([], cs)
  | _ + 1, [] => none
  | k + 1, c :: cs =>
    if isHexLower c then (takeHexN k cs).map (fun hr => (c :: hr.1, hr.2)) else none

/-- Match of the regular expression
    (re_hgid, perfarce.py line 526; braces written with escapes):
    "\x7b\x7bmercurial (([0-9a-f]\x7b40\x7d)(:([0-9a-f]\x7b40\x7d))?)\x7d\x7d". -/
structure MarkerMatch where
  id1 : String
  id2 : Option String
  mstart : Nat
  mlen : Nat
deriving DecidableEq

/-- Try to match the re_hgid pattern at the head of a character list.
    Returns group(2), optional group(4) and the matched length. -/
def matchAt (cs : List Char) : Option (String × Option String × Nat) :=
  match dropPref "\x7b\x7bmercurial ".data cs with
  | none => none
  | some r1 =>
    match takeHexN 40 r1 with
    | none => none
    | some (h1, r2) =>
      match r2 with
      | ':' :: r3 =>
        match takeHexN 40 r3 with
        | some (h2, '\x7d' :: '\x7d' :: _) =>
          some (String.mk h1, some (String.mk h2), 12 + 40 + 1 + 40 + 2)
        | _ => none
      | '\x7d' :: '\x7d' :: _ => some (String.mk h1, none, 12 + 40 + 2)
      | _ => none

/-- Leftmost match search, as re.search does for re_hgid. -/
def searchFrom : List Char → Nat → Option MarkerMatch
  | [], _ => none
  | c :: rest, i =>
    match matchAt (c :: rest) with
    | some (h1, h2, len) => some ⟨h1, h2, i, len⟩
    | none => searchFrom rest (i + 1)

/-- re_hgid.search on a changelist description. -/
def searchMarker (s : String) : Option MarkerMatch :=
  searchFrom s.data 0

/-- Replace every marker occurrence by "\x7b\x7b\x7d\x7d"; models
    re_hgid.sub(b"\x7b\x7b\x7d\x7d", d), the `noid` helper of push
    (perfarce.py lines 1730-1731). -/
def blankAux : Nat → List Char → List Char
  | _, [] => []
  | 0, cs => cs
  | fuel + 1, c :: rest =>
    match matchAt (c :: rest) with
    | some (_, _, len) => "\x7b\x7b\x7d\x7d".data ++ blankAux fuel (rest.drop (len - 1))
    | none => c :: blankAux fuel rest

/-- re_hgid.sub with blanked markers, on a String.  Every scan step
    consumes at least one character, so fuel equal to the length is
    exact. -/
def blankMarkers (s : String) : String := String.mk (blankAux s.data.length s.data)

/-- Character-list prefix test. -/
def listPref : List Char → List Char → Bool
  | [], _ => true
  | _ :: _, [] => false
  | p :: ps, c :: cs => p == c && listPref ps cs

/-- bytes.startswith, as used for the .hg checks; structurally
    recursive so that it evaluates inside the kernel. -/
def strStartsWith (s pre : String) : Bool := listPref pre.data s.data

/-- bytes.endswith, same kernel-evaluable style. -/
def strEndsWith (s suf : String) : Bool := listPref suf.data.reverse s.data.reverse

/-- The Mercurial repository and its backend operations, as seen by the
    engine.  Status, copy tracing, manifests and flags are the excluded
    external collaborators, hence plain function fields.  A revision's
    parents always have smaller revision numbers (revlog invariant);
    definitions that recurse along parent edges enforce `p < n` locally
    so that they are total on every instance. -/
structure Repo where
  numrevs : Nat
  parents : Nat → List Nat
  extraP4 : Nat → Option Nat
  filesOf : Nat → List String
  descOf : Nat → String
  tip : Nat
  defaultHead : Nat
  qbase : Option Nat
  client : String
  ignorecase : Bool
  manifest : Nat → List String
  normcase : String → String
  statusMod : Option Nat → Nat → List String
  statusAdd : Option Nat → Nat → List String
  statusRem : Option Nat → Nat → List String
  flagsOf : Option Nat → String → String
  dataOf : Option Nat → String → String
  pathcopies : Option Nat → Nat → List (String × String)

/-- Ancestor test with explicit fuel; a step is only taken to a parent
    with a smaller revision number, so fuel `b` always suffices. -/
def isAncFuel (R : Repo) (a : Nat) : Nat → Nat → Bool
  | fuel, b =>
    a == b ||
      match fuel with
      | 0 => false
      | f + 1 => (R.parents b).any (fun p => decide (p < b) && isAncFuel R a f p)

/-- `a` is an ancestor of `b` (inclusive). -/
def isAnc (R : Repo) (a b : Nat) : Bool := isAncFuel R a b b

/-- Ancestor test where the root may be the null revision, which is an
    ancestor of everything. -/
def isAncO (R : Repo) : Option Nat → Nat → Bool
  | none, _ => true
  | some a, b => isAnc R a b

/-- changelog.nodesbetween(roots, heads)[0]: the revisions that are
    descendants of some root and ancestors of some head, in revlog
    (topological) order. -/
def nodesbetween (R : Repo) (roots : List (Option Nat)) (heads : List Nat) : List Nat :=
  (List.range R.numrevs).filter
    (fun n => roots.any (fun r => isAncO R r n) && heads.any (fun h => isAnc R n h))

/-- ctx.children() of a revision. -/
def childrenOf (R : Repo) (n : Nat) : List Nat :=
  (List.range R.numrevs).filter (fun c => (R.parents c).contains n)

/-- Some child of `n` carries the p4 extra-attribute
    (the check of _pushcommon, perfarce.py lines 1130-1134). -/
def hasP4Child (R : Repo) (n : Nat) : Bool :=
  (childrenOf R n).any (fun c => (R.extraP4 c).isSome)

/-- repo[hexstring]: resolve a 40-hex identifier to a revision;
    `none` models the RepoLookupError raised on failure. -/
def lookupHex (R : Repo) (s : String) : Option Nat :=
  (List.range R.numrevs).find? (fun n => hex40 n == s)

/-- p4client.parsenodes (perfarce.py lines 528-539): find the embedded
    revision marker in a changelist description and resolve it to the
    revision range between its endpoints.  The whole resolution is
    wrapped in try/except in the source: any lookup failure yields an
    empty node list (with a diagnostic note) and the match object. -/
def parsenodes (R : Repo) (desc : String) : List Nat × Option MarkerMatch :=
  match searchMarker desc with
  | none => ([], none)
  | some m =>
    match lookupHex R m.id1, lookupHex R (m.id2.getD m.id1) with
    | some a, some b => (nodesbetween R [some a] [b], some m)
    | _, _ => ([], some m)

/-- p4client.actions (perfarce.py lines 777-780): depot-native verb to
    classified action. -/
def actions : List (String × String) :=
  [("add", "A"), ("branch", "A"), ("move/add", "A"),
   ("edit", "M"), ("integrate", "M"), ("import", "A"),
   ("delete", "R"), ("move/delete", "R"), ("purge", "R")]

/-- Dictionary lookup self.actions[verb]; `none` models the KeyError on
    an unknown verb. -/
def actionOf (verb : String) : Option String :=
  (actions.find? (fun kv => kv.1 == verb)).map (fun kv => kv.2)

/-- Description construction of _pushcommon (perfarce.py lines
    1181-1192): fold the descriptions of all pushed changesets, joined
    by a marker line, and append the encoded revision marker; the
    ancestor endpoint appears only when more than one changeset is
    folded. -/
def buildDesc (R : Repo) (nodes : List Nat) : String :=
  let descs := nodes.map R.descOf
  let h := (if nodes.length > 1 then [hex40 (nodes.headD 0)] else []) ++
           [hex40 (nodes.getLastD 0)]
  String.intercalate "\n* * *\n" descs ++
    "\n\n\x7b\x7bmercurial " ++ String.intercalate ":" h ++ "\x7d\x7d\n"

/-- The marker endpoints chosen by _pushcommon. -/
def markerEndpoints (nodes : List Nat) : List Nat :=
  (if nodes.length > 1 then [nodes.headD 0] else []) ++ [nodes.getLastD 0]

/-- Errors surfaced by the engine (error.Abort in the source), plus the
    fuel sentinel of the modelled breadth-first walk (shown unreachable
    by find_terminates). -/
inductive PErr
  | noP4Found
  | alreadyInP4
  | mqApplied
  | outOfFuel
deriving DecidableEq

/-- dothgonly of p4client.find (perfarce.py lines 400-410): the context
    has files and all of them are .hg files. -/
def dothgonly (R : Repo) (c : Nat) : Bool :=
  !(R.filesOf c).isEmpty && (R.filesOf c).all (fun f => strStartsWith f ".hg")

/-- The mq guard of the base descent in find (line 431-432): blocked
    when an mq base exists and lies between it and the context. -/
def mqBlocked (R : Repo) (ctx : Nat) : Bool :=
  match R.qbase with
  | none => false
  | some q => !(nodesbetween R [some q] [ctx]).isEmpty

/-- Base descent of find (lines 429-436): while the entry path is
    nonempty, step to the nearest recorded descendant as long as it only
    touches .hg files and mq does not intervene; afterwards the residual
    path is always empty. -/
def descendBase (R : Repo) : Nat → List Nat → Nat × List Nat
  | ctx, [] => (ctx, [])
  | ctx, c :: rest =>
    if dothgonly R c && !mqBlocked R ctx then descendBase R c rest else (ctx, [])

/-- Handling of one frontier entry in find (lines 426-439): if the
    context carries the p4 extra, optionally descend (base mode) and
    report a hit when no specific changelist is requested (p4rev = 0
    models a falsy p4rev) or the requested one is found; otherwise keep
    the (possibly rebound) entry for parent expansion. -/
def findItem (R : Repo) (base : Bool) (p4rev : Nat) (cp : Nat × List Nat) :
    (Nat × Nat) ⊕ (Nat × List Nat) :=
  match R.extraP4 cp.1 with
  | none => .inr cp
  | some p4 =>
    let cp' := if base then descendBase R cp.1 cp.2 else cp
    if p4rev == 0 || p4 == p4rev then .inl (cp'.1, p4) else .inr cp'

/-- Parent expansion of one entry (lines 441-444): a parent is appended
    to the next frontier only if it is not in the seen set, and it is
    added to the seen set at the same time. -/
def addParents (R : Repo) (cp : Nat × List Nat)
    (acc : List (Nat × List Nat) × List Nat) : List (Nat × List Nat) × List Nat :=
  (R.parents cp.1).foldl
    (fun nxsn p =>
      if p ∈ nxsn.2 then nxsn
      else (nxsn.1 ++ [(p, cp.1 :: cp.2)], nxsn.2 ++ [p]))
    acc

/-- One breadth-first level of find: process every frontier entry in
    order, returning either the found (revision, changelist) pair or the
    next frontier with the extended seen set. -/
def findPass (R : Repo) (base : Bool) (p4rev : Nat) :
    List (Nat × List Nat) → List (Nat × List Nat) → List Nat →
    (Nat × Nat) ⊕ (List (Nat × List Nat) × List Nat)
  | [], nx, sn => .inr (nx, sn)
  | cp :: rest, nx, sn =>
    match findItem R base p4rev cp with
    | .inl r => .inl r
    | .inr cp' =>
      let nxsn := addParents R cp' (nx, sn)
      findPass R base p4rev rest nxsn.1 nxsn.2

/-- The while-loop of find (lines 423-446) with explicit fuel; `none`
    is the out-of-fuel sentinel, `some none` means the frontier emptied
    without a hit, `some (some r)` is a hit. -/
def findLoop (R : Repo) (base : Bool) (p4rev : Nat) :
    Nat → List (Nat × List Nat) → List Nat → Option (Option (Nat × Nat))
  | _, [], _ => some none
  | 0, _ :: _, _ => none
  | fuel + 1, cp :: rest, sn =>
    match findPass R base p4rev (cp :: rest) [] sn with
    | .inl r => some (some r)
    | .inr nxsn => findLoop R base p4rev fuel nxsn.1 nxsn.2

/-- p4client.find (lines 393-450): breadth-first walk from the default
    head; `abortA` models the abort flag (raise when no p4 revision is
    found), the not-found result without abort is (nullid, 0), modelled
    as (none, 0).  The fuel numrevs + 2 is sufficient (find_terminates). -/
def findExc (R : Repo) (base abortA : Bool) (p4rev : Nat) :
    Except PErr (Option Nat × Nat) :=
  match findLoop R base p4rev (R.numrevs + 2) [(R.defaultHead, [])] [] with
  | none => .error .outOfFuel
  | some (some hit) => .ok (some hit.1, hit.2)
  | some none => if abortA then .error .noP4Found else .ok (none, 0)

/-- Ordered insert for the stable sort below. -/
def insertBy (le : α → α → Bool) (a : α) : List α → List α
  | [] => [a]
  | b :: t => if le a b then a :: b :: t else b :: insertBy le a t

/-- Insertion sort (the model of list.sort()); structurally recursive
    so that it evaluates inside the kernel. -/
def sortBy (le : α → α → Bool) : List α → List α
  | [] => []
  | a :: t => insertBy le a (sortBy le t)

/-- One changelist record as returned by a `p4 changes -l` query:
    change number, description and client name. -/
structure PendEntry where
  change : Nat
  desc : String
  client : String
deriving DecidableEq

/-- One entry of the p4pending list built by _readp4stat (line 640):
    (change, status == submitted, parsed nodes, desc, client). -/
structure PendingTuple where
  change : Nat
  submitted : Bool
  nodes : List Nat
  desc : String
  client : String
deriving DecidableEq

/-- The depot state visible to the engine for one client:
    * changesInRange p4id — result of the submitted-range query
      "changes -l -c client partial...@p4id,#head";
    * submittedExtra — changelists submitted by this session (appended
      to the range query results);
    * pendingForClient — result of "changes ... -s pending" for the
      client, in query order;
    * nextChange — the next changelist number the depot would assign. -/
structure P4State where
  changesInRange : Nat → List PendEntry
  submittedExtra : List PendEntry
  pendingForClient : List PendEntry
  nextChange : Nat

/-- The helper fold of _readp4stat (lines 633-643): skip the changelist
    equal to the sync point's own id, parse each description for an
    embedded marker, accumulate the entry and union its nodes into the
    membership set.  The Bool on each record models
    d[status] == submitted. -/
def statFold (R : Repo) (p4id : Nat) (recs : List (PendEntry × Bool)) :
    List Nat × List PendingTuple :=
  recs.foldl
    (fun acc db =>
      if db.1.change == p4id then acc
      else
        let nodes := (parsenodes R db.1.desc).1
        (acc.1 ++ nodes, acc.2 ++ [⟨db.1.change, db.2, nodes, db.1.desc, db.1.client⟩]))
    ([], [])

/-- p4client._readp4stat (lines 626-652): find the sync point without
    aborting, run the submitted-range query then the pending query, fold
    both through the helper, and sort the pending list (the source sorts
    the tuples, whose first component is the change number). -/
def readp4stat (R : Repo) (S : P4State) : Except PErr (List Nat × List PendingTuple) :=
  match findExc R false false 0 with
  | .error e => .error e
  | .ok pr =>
    let p4id := pr.2
    let recs :=
      (S.changesInRange p4id ++ S.submittedExtra).map (fun e => (e, true)) ++
        S.pendingForClient.map (fun e => (e, false))
    let sp := statFold R p4id recs
    .ok (sp.1, sortBy (fun a b => a.change ≤ b.change) sp.2)

/-- p4client.getpending (lines 614-618): membership of a node in the
    pending/submitted set. -/
def getpending (R : Repo) (S : P4State) (n : Nat) : Except PErr Bool :=
  (readp4stat R S).map (fun sp => decide (n ∈ sp.1))

/-- p4client.getpendinglist (lines 620-624). -/
def getpendinglist (R : Repo) (S : P4State) : Except PErr (List PendingTuple) :=
  (readp4stat R S).map (fun sp => sp.2)

/-- Options of the push/outgoing entry points that _pushcommon reads:
    force flag, optional revision pair (a single revision r is
    (r, none): revpair then yields ctx2 = r and ctx1 = r's first
    parent), and the submit flag of push. -/
structure PushOpts where
  force : Bool
  rev : Option (Nat × Option Nat)
  submit : Bool

/-- The (ctx1, ctx2) pair of _pushcommon (lines 1092-1099): with a
    revision option as in revpairnodes, otherwise from the found sync
    point to tip; ctx1 may be the null revision (none). -/
def ctxPair (R : Repo) (o : PushOpts) (p4rev : Option Nat) : Option Nat × Nat :=
  match o.rev with
  | some (r1, some r2) => (some r1, r2)
  | some (r1, none) => ((R.parents r1).head?, r1)
  | none => (p4rev, R.tip)

/-- The candidate range of _pushcommon (line 1101):
    nodesbetween(ctx1, ctx2) with the first element dropped when the
    sync point's changelist id is truthy. -/
def candidateNodes (R : Repo) (o : PushOpts) (p4rev : Option Nat) (p4id : Nat) :
    List Nat :=
  let cc := ctxPair R o p4rev
  let nb := nodesbetween R [cc.1] [cc.2]
  if p4id ≠ 0 then nb.drop 1 else nb

/-- The end-trimming loop of _pushcommon (lines 1104-1113): repeatedly
    delete an already-pending changeset from the front, then from the
    back. -/
def trimEnds (p : Nat → Bool) (l : List Nat) : List Nat :=
  ((l.dropWhile p).reverse.dropWhile p).reverse

/-- The plan tuple returned by _pushcommon (line 1200). -/
structure Plan where
  p4rev : Option Nat
  p4id : Nat
  nodes : List Nat
  ctx2 : Nat
  desc : String
  mod : List (String × String)
  add : List (String × String)
  rem : List (String × String)
  cpy : List (String × String × Bool)
deriving DecidableEq

/-- Whether a traced copy also changes data or flags (lines 1150-1152). -/
def cpyChanged (R : Repo) (c1 : Option Nat) (c2 : Nat) (dst src : String) : Bool :=
  decide (R.flagsOf (some c2) dst ≠ R.flagsOf c1 dst) ||
    decide (R.dataOf (some c2) dst ≠ R.dataOf c1 src)

/-- Tail of _pushcommon after the range is fixed (lines 1138-1200):
    empty range reports no changes (ok none); compute the status lists
    with flags and the copy map; remove .hg* files from the modified,
    added and removed lists; report no changes if nothing remains;
    detect applied mq patches (fatal unless forced); build the folded
    description with the encoded marker and return the plan. -/
def planTail (R : Repo) (o : PushOpts) (p4rev : Option Nat) (p4id : Nat)
    (nodes : List Nat) (cc : Option Nat × Nat) : Except PErr (Option Plan) :=
  if nodes.isEmpty then .ok none
  else
    let c1 := cc.1
    let c2 := cc.2
    let mod0 := (R.statusMod c1 c2).map (fun f => (f, R.flagsOf (some c2) f))
    let add0 := (R.statusAdd c1 c2).map (fun f => (f, R.flagsOf (some c2) f))
    let rem0 := (R.statusRem c1 c2).map (fun f => (f, ""))
    let cpy := (R.pathcopies c1 c2).map
      (fun ds => (ds.1, ds.2, cpyChanged R c1 c2 ds.1 ds.2))
    let mod := mod0.filter (fun fg => !strStartsWith fg.1 ".hg")
    let add := add0.filter (fun fg => !strStartsWith fg.1 ".hg")
    let rem := rem0.filter (fun fg => !strStartsWith fg.1 ".hg")
    if mod.isEmpty && add.isEmpty && rem.isEmpty then .ok none
    else
      let mqHit :=
        match R.qbase with
        | some q => !(nodesbetween R [some q] nodes).isEmpty
        | none => false
      if mqHit && !o.force then .error .mqApplied
      else
        .ok (some ⟨p4rev, p4id, nodes, c2, buildDesc R nodes, mod, add, rem, cpy⟩)

/-- The p4 commands the engine issues, with a mutation classification:
    changes queries only read depot state. -/
inductive P4Cmd
  | changesRange (p4id : Nat)
  | changesPending
  | changeCmd
  | syncCmd
  | submitCmd
  | editOpen
  | addOpen
  | deleteOpen
  | revertCmd
  | copyOp
  | moveOp
  | integrateOp
  | reopenCmd
deriving DecidableEq

/-- Whether a p4 command mutates depot state. -/
def P4Cmd.mutating : P4Cmd → Bool
  | .changesRange _ => false
  | .changesPending => false
  | _ => true

/-- The two read-only queries _readp4stat issues when the pending cache
    is first populated. -/
def readCmds (p4id : Nat) : List P4Cmd :=
  [.changesRange p4id, .changesPending]

/-- The non-forced middle of _pushcommon (lines 1103-1136): populate the
    pending cache (issuing the two read queries), trim both ends,
    recalculate the context pair when trimming left a nonempty range,
    and abort if a remaining changeset is already pending/submitted or
    has a child carrying the p4 extra. -/
def pushcommonNoForce (R : Repo) (S : P4State) (o : PushOpts)
    (p4rev : Option Nat) (p4id : Nat) (x : List Nat) :
    List P4Cmd × Except PErr (Option Plan) :=
  if x.isEmpty then ([], .ok none)
  else
    match readp4stat R S with
    | .error e => (readCmds p4id, .error e)
    | .ok sp =>
      let pendB := fun n => decide (n ∈ sp.1)
      let nodes := trimEnds pendB x
      let cc :=
        if nodes ≠ x ∧ ¬nodes.isEmpty then
          ((R.parents (nodes.headD 0)).head?, nodes.getLastD 0)
        else ctxPair R o p4rev
      if nodes.any (fun n => pendB n || hasP4Child R n) then
        (readCmds p4id, .error .alreadyInP4)
      else
        (readCmds p4id, planTail R o p4rev p4id nodes cc)

/-- _pushcommon (lines 1086-1200), returning the issued p4 commands
    together with the outcome: an abort, no changes (ok none) or the
    push plan. -/
def pushcommon (R : Repo) (S : P4State) (o : PushOpts) :
    List P4Cmd × Except PErr (Option Plan) :=
  match findExc R true (!o.force) 0 with
  | .error e => ([], .error e)
  | .ok pr =>
    let x := candidateNodes R o pr.1 pr.2
    if o.force then ([], planTail R o pr.1 pr.2 x (ctxPair R o pr.1))
    else pushcommonNoForce R S o pr.1 pr.2 x

/-- Accumulator of the add-classification loop of push
    (lines 1757-1782). -/
structure ClassState where
  moves : List (String × String × String)
  copies : List (String × String)
  ntg : List (String × String)
  add2 : List (String × String)
  mod2 : List (String × String)
  rems : List (String × Bool)
deriving DecidableEq

/-- cpy dictionary lookup: destination to (source, changed). -/
def lookupCpy : List (String × String × Bool) → String → Option (String × Bool)
  | [], _ => none
  | e :: t, f => if e.1 == f then some e.2 else lookupCpy t f

/-- rems dictionary lookup. -/
def lookupRems : List (String × Bool) → String → Option Bool
  | [], _ => none
  | e :: t, k => if e.1 == k then some e.2 else lookupRems t k

/-- rems[k] = False. -/
def setRemsFalse : List (String × Bool) → String → List (String × Bool)
  | [], _ => []
  | e :: t, k => (if e.1 == k then (e.1, false) else e) :: setRemsFalse t k

/-- One iteration of the classification loop (lines 1766-1779): a
    copied-from addition becomes a move when move is supported and the
    source is a still-unconsumed removal, else a copy when copy is
    supported, else an integrate; a data/flag-changing copy is also
    queued for edit; a plain addition stays an addition. -/
def classStep (cpy : List (String × String × Bool)) (mv cp : Bool)
    (st : ClassState) (fg : String × String) : ClassState :=
  match lookupCpy cpy fg.1 with
  | none => { st with add2 := st.add2 ++ [fg] }
  | some rc =>
    let st1 :=
      if mv && (lookupRems st.rems rc.1).getD false then
        { st with moves := st.moves ++ [(rc.1, fg.1, fg.2)],
                  rems := setRemsFalse st.rems rc.1 }
      else if cp then { st with copies := st.copies ++ [(rc.1, fg.1)] }
      else { st with ntg := st.ntg ++ [(rc.1, fg.1)] }
    if rc.2 then { st1 with mod2 := st1.mod2 ++ [fg] } else st1

/-- The full classification of push (lines 1757-1782): fold the added
    files through the loop, then keep only the removals whose entry in
    rems is still true. -/
def classifyAdds (addL remL : List (String × String))
    (cpy : List (String × String × Bool)) (mv cp : Bool) :
    ClassState × List (String × String) :=
  let init : ClassState := ⟨[], [], [], [], [], remL.map (fun r => (r.1, true))⟩
  let st := addL.foldl (classStep cpy mv cp) init
  (st, remL.filter (fun r => (lookupRems st.rems r.1).getD false))

/-- The reuse scan of push (lines 1729-1737): the last pending
    changelist of the client whose description, markers blanked, equals
    the new description with markers blanked. -/
def scanReuse (S : P4State) (desc : String) : Option Nat :=
  (S.pendingForClient.filter
      (fun e => blankMarkers e.desc == blankMarkers desc)).getLast?
    |>.map (fun e => e.change)

/-- Outcome of a push invocation. -/
inductive PushOutcome
  | aborted (e : PErr)
  | noChanges
  | pushed (change : Nat)
deriving DecidableEq

/-- The apply phase of push (lines 1713-1890) restricted to the depot
    changelist state it mutates: re-read the pending list, scan for a
    reusable changelist, classify the additions, then either update the
    reused changelist's description or create a new changelist carrying
    the plan's description; submit moves the changelist from the pending
    list to the submitted ones.  File staging (sync, revert, open for
    add/edit/delete, writing contents) acts on the client workspace, not
    on the changelist bookkeeping modelled here. -/
def applyPush (R : Repo) (S : P4State) (o : PushOpts) (plan : Plan)
    (mv cp : Bool) : Except PErr (P4State × Nat) :=
  match readp4stat R S with
  | .error e => .error e
  | .ok _ =>
    let use := scanReuse S plan.desc
    let _cls := classifyAdds plan.add plan.rem plan.cpy mv cp
    let su :=
      match use with
      | some u =>
        let upd := S.pendingForClient.map
          (fun e => if e.change == u then { e with desc := plan.desc } else e)
        ({ S with pendingForClient := upd }, u)
      | none =>
        let ext := S.pendingForClient ++ [⟨S.nextChange, plan.desc, R.client⟩]
        ({ S with pendingForClient := ext, nextChange := S.nextChange + 1 },
          S.nextChange)
    if o.submit then
      let keep := su.1.pendingForClient.filter (fun e => e.change ≠ su.2)
      let moved := su.1.pendingForClient.filter (fun e => e.change == su.2)
      let sub := su.1.submittedExtra ++ moved
      .ok ({ su.1 with pendingForClient := keep, submittedExtra := sub }, su.2)
    else .ok su

/-- The push command (lines 1695-1890) over the modelled depot state:
    plan via _pushcommon, then apply; an abort leaves the depot
    changelist state unchanged. -/
def pushModel (R : Repo) (S : P4State) (o : PushOpts) (mv cp : Bool) :
    P4State × PushOutcome :=
  match (pushcommon R S o).2 with
  | .error e => (S, .aborted e)
  | .ok none => (S, .noChanges)
  | .ok (some plan) =>
    match applyPush R S o plan mv cp with
    | .error e => (S, .aborted e)
    | .ok su => (su.1, .pushed su.2)

/-- A 5-tuple file entry as produced by fstat (depotname, revision,
    type, action, localname). -/
structure FileEnt where
  depotname : String
  rev : Nat
  ftype : String
  action : String
  localname : String
deriving DecidableEq

/-- A changelist description object as built by p4client.describe. -/
structure CLDesc where
  change : Nat
  desc : String
  user : String
  date : Nat
  client : String
  jobs : List String
deriving DecidableEq

/-- Dictionary insert with overwrite (Python dict assignment). -/
def dictInsert (m : List (String × FileEnt)) (k : String) (v : FileEnt) :
    List (String × FileEnt) :=
  if m.any (fun e => e.1 == k) then
    m.map (fun e => if e.1 == k then (k, v) else e)
  else m ++ [(k, v)]

/-- _entries (lines 1461-1477): map local names to file entries; under
    ignorecase fold the manifests of both parents into a
    normalized-name lookup and deduplicate the files by normalized
    name. -/
def entriesOf (R : Repo) (files : List FileEnt) (p1 p2 : Option Nat) :
    List (String × FileEnt) :=
  if R.ignorecase then
    let mani := ((p1.toList ++ p2.toList).foldl
      (fun mp n => (R.manifest n).foldl
        (fun mp f =>
          let k := R.normcase f
          if mp.any (fun e => (e : String × String).1 == k) then
            mp.map (fun e => if e.1 == k then (k, f) else e)
          else mp ++ [(k, f)])
        mp) ([] : List (String × String)))
    (files.foldl
      (fun acc f =>
        let g := R.normcase f.localname
        if g ∈ acc.2 then acc
        else
          let key := ((mani.find? (fun e => e.1 == g)).map (fun e => e.2)).getD f.localname
          (dictInsert acc.1 key f, acc.2 ++ [g]))
      (([], []) : List (String × FileEnt) × List String)).1
  else files.foldl (fun m f => dictInsert m f.localname f) []

/-- Marker removal of the pull trim option (lines 1320-1324):
    desc[:match.start] + desc[match.end:], and drop two characters when
    the result ends with three newlines. -/
def stripMarker (desc : String) (m : MarkerMatch) : String :=
  let d := desc.data
  let d2 := d.take m.mstart ++ d.drop (m.mstart + m.mlen)
  let s := String.mk d2
  if strEndsWith s "\n\n\n" then String.mk (d2.take (d2.length - 2)) else s

/-- The argument record handed to memctx by _common_commit
    (lines 1480-1490). -/
structure CommitArgs where
  p1 : Option Nat
  p2 : Option Nat
  desc : String
  files : List String
  user : String
  date : Nat
  extraP4 : Option Nat
  extraJobs : Option String
deriving DecidableEq

/-- _common_commit (lines 1480-1490): attach the joined job ids as the
    p4jobs extra and commit with the given parent pair. -/
def commonCommit (cl : CLDesc) (extraP4 : Option Nat) (files : List String)
    (p1 p2 : Option Nat) : CommitArgs :=
  { p1 := p1, p2 := p2, desc := cl.desc, files := files, user := cl.user,
    date := cl.date, extraP4 := extraP4,
    extraJobs := if cl.jobs.isEmpty then none
                 else some (String.intercalate " " cl.jobs) }

/-- One iteration of the pull loop (lines 1303-1342) for changelist
    `cl`, reduced to the commit it creates: parse the description for a
    revision marker; when it resolves, the last revision of the resolved
    range becomes the second parent and that revision's .hg files ride
    along (optionally the marker is stripped from the description);
    otherwise the commit is linear; the first folded revision of a
    startrev clone carries no p4 extra. -/
def pullStep (R : Repo) (cl : CLDesc) (files : List FileEnt)
    (p4rev : Option Nat) (startrev trimOpt : Bool) : CommitArgs :=
  let pn := parsenodes R cl.desc
  let nodes := pn.1
  let parent : Option Nat :=
    if nodes.isEmpty then none else some (nodes.getLastD 0)
  let hgfiles :=
    match parent with
    | some p => (R.filesOf p).filter (fun f => strStartsWith f ".hg")
    | none => []
  let desc' :=
    if trimOpt && !nodes.isEmpty then
      match pn.2 with
      | some m => stripMarker cl.desc m
      | none => cl.desc
    else cl.desc
  let cl' := { cl with desc := desc' }
  let extra := if startrev then none else some cl.change
  let entries := entriesOf R files p4rev parent
  commonCommit cl' extra (entries.map (fun e => e.1) ++ hgfiles) p4rev parent

/-- A repository template for concrete instances: no revisions, inert
    backends. -/
def baseRepo : Repo where
  numrevs := 0
  parents := fun _ => []
  extraP4 := fun _ => none
  filesOf := fun _ => ["f"]
  descOf := fun _ => ""
  tip := 0
  defaultHead := 0
  qbase := none
  client := "c"
  ignorecase := false
  manifest := fun _ => []
  normcase := fun s => s
  statusMod := fun _ _ => []
  statusAdd := fun _ _ => []
  statusRem := fun _ _ => []
  flagsOf := fun _ _ => ""
  dataOf := fun _ _ => ""
  pathcopies := fun _ _ => []

/-- An empty depot state for one client. -/
def p4Empty : P4State where
  changesInRange := fun _ => []
  submittedExtra := []
  pendingForClient := []
  nextChange := 200

/-- Default push options: no force, whole range, no submit. -/
def optsNF : PushOpts := ⟨false, none, false⟩

/-- A two-revision repository whose tip's description is "fix bug". -/
def repoFix : Repo := { baseRepo with numrevs := 2, descOf := fun _ => "fix bug" }

/-- A description carrying a marker whose endpoint does not resolve in
    an empty repository. -/
def descW5 : String := "zz\n\n\x7b\x7bmercurial " ++ hex40 1 ++ "\x7d\x7d\n"

/-- The match that re_hgid finds in descW5. -/
def matchW5 : MarkerMatch := ⟨hex40 1, none, 4, 54⟩

/-- A linear chain 0 → 1 → 2 whose root was converted from p4
    changelist 100. -/
def repoLin : Repo :=
  { baseRepo with
    numrevs := 3
    parents := fun n => match n with | 1 => [0] | 2 => [1] | _ => []
    extraP4 := fun n => if n = 0 then some 100 else none
    descOf := fun n => match n with | 1 => "a" | 2 => "b" | _ => "d0"
    tip := 2
    defaultHead := 2
    statusAdd := fun _ _ => ["fb"] }

/-- A merge diamond: 0 → 1, 0 → 2, parents of 3 are 1 and 2; the root
    was converted from p4 changelist 100. -/
def repoMrg : Repo :=
  { baseRepo with
    numrevs := 4
    parents := fun n => match n with | 1 => [0] | 2 => [0] | 3 => [1, 2] | _ => []
    extraP4 := fun n => if n = 0 then some 100 else none
    descOf := fun n => match n with | 0 => "d0" | 1 => "da" | 2 => "db" | _ => "dm"
    tip := 3
    defaultHead := 3
    statusAdd := fun _ _ => ["fb"] }

/-- The depot state after the first modelled push on repoLin. -/
def p4AfterLin : P4State := (pushModel repoLin p4Empty optsNF false false).1

/-- The description of the pending changelist recorded by that push. -/
def descLin : String := buildDesc repoLin [1, 2]

/-- A linear chain 0 → 1 → 2 → 3, root converted from p4 changelist
    100. -/
def repoChain4 : Repo :=
  { baseRepo with
    numrevs := 4
    parents := fun n => match n with | 0 => [] | k + 1 => [k]
    extraP4 := fun n => if n = 0 then some 100 else none
    descOf := fun n => match n with | 1 => "a" | 2 => "b" | 3 => "e" | _ => "d0"
    tip := 3
    defaultHead := 3
    statusAdd := fun _ _ => ["fb"] }

/-- A pending changelist description whose marker names revision 2. -/
def descPend : String := "x\n\n\x7b\x7bmercurial " ++ hex40 2 ++ "\x7d\x7d\n"

/-- A depot state with one pending changelist (number 300) covering
    revision 2 of repoChain4. -/
def p4Pend : P4State where
  changesInRange := fun _ => []
  submittedExtra := []
  pendingForClient := [⟨300, descPend, "c"⟩]
  nextChange := 400

/-- The pending tuple _readp4stat builds from that changelist. -/
def pendTuple : PendingTuple := ⟨300, false, [2], descPend, "c"⟩

/-- repoChain4 with a delta that only touches .hg files. -/
def repoHg : Repo := { repoChain4 with statusAdd := fun _ _ => [".hgtags"] }

/-- repoChain4 with a delta of one .hg file and one ordinary file. -/
def repoMix : Repo := { repoChain4 with statusAdd := fun _ _ => [".hgtags", "f"] }

/-- The plan pushcommon produces on repoMix: the .hgtags addition is
    filtered out. -/
def planMix : Plan :=
  ⟨some 0, 100, [1, 2, 3], 3, buildDesc repoMix [1, 2, 3], [], [("f", "")], [], []⟩

/- ------------------------------------------------------------------
   Theorems
   ------------------------------------------------------------------ -/

lemma hex40_length (n : Nat) : (hex40 n).length = 40 := by
  simp [hex40, String.length]

lemma hexChar_lower : ∀ d, d < 16 → isHexLower (hexChar d) = true := by decide

lemma hex40_lower (n : Nat) : ∀ c ∈ (hex40 n).data, isHexLower c = true := by
  intro c hc
  have hc' : c ∈ ((List.range 40).reverse).map (fun i => hexChar (n / 16 ^ i % 16)) := hc
  obtain ⟨i, -, rfl⟩ := List.mem_map.mp hc'
  exact hexChar_lower _ (Nat.mod_lt _ (by norm_num))

/-- C4 counterexample: the claim maps the depot verb import to modify,
    but p4client.actions classifies import as an addition: the entry for
    "import" is "A", not "M". -/
theorem actions_import_cx :
    actionOf "import" = some "A" ∧ actionOf "import" ≠ some "M" := by decide

/-- C4 (amended): the classification of a file's action is the pure
    dictionary p4client.actions, mapping the verbs add, branch,
    move/add and also the verb "import" to add; edit and integrate to
    modify; delete, move/delete and purge to remove. -/
theorem actions_classification :
    actionOf "add" = some "A" ∧ actionOf "branch" = some "A" ∧
    actionOf "move/add" = some "A" ∧ actionOf "import" = some "A" ∧
    actionOf "edit" = some "M" ∧ actionOf "integrate" = some "M" ∧
    actionOf "delete" = some "R" ∧ actionOf "move/delete" = some "R" ∧
    actionOf "purge" = some "R" := by decide

/-- C7: for every push of a nonempty range, the changelist description
    is the concatenation of the folded changesets' descriptions
    separated by the marker line, followed by the encoded revision
    marker; every endpoint identifier is exactly 40 lowercase hex
    characters, and when exactly one changeset is folded the marker
    holds a single identifier, which is that changeset's identifier. -/
theorem push_desc_structure (R : Repo) (nodes : List Nat) (hne : nodes ≠ []) :
    buildDesc R nodes =
      String.intercalate "\n* * *\n" (nodes.map R.descOf) ++
        "\n\n\x7b\x7bmercurial " ++
        String.intercalate ":" ((markerEndpoints nodes).map hex40) ++ "\x7d\x7d\n"
    ∧ (∀ k ∈ markerEndpoints nodes,
        (hex40 k).length = 40 ∧ ∀ c ∈ (hex40 k).data, isHexLower c = true)
    ∧ ∀ n, nodes = [n] → (markerEndpoints nodes).map hex40 = [hex40 n] := by
  refine ⟨?_, ?_, ?_⟩
  · simp only [buildDesc, markerEndpoints, List.map_append]
    by_cases h1 : nodes.length > 1 <;> simp [h1]
  · intro k _
    exact ⟨hex40_length k, hex40_lower k⟩
  · intro n h
    subst h
    simp [markerEndpoints]

/-- C7 witness: pushing the single changeset 1 of repoFix, whose
    description is "fix bug", produces exactly the scenario description
    with a single 40-character identifier. -/
theorem push_desc_structure_witness :
    buildDesc repoFix [1] =
      "fix bug" ++ "\n\n\x7b\x7bmercurial " ++ hex40 1 ++ "\x7d\x7d\n"
    ∧ (hex40 1).length = 40 := by
  have h := push_desc_structure repoFix [1] (by simp)
  refine ⟨?_, (h.2.1 1 (by simp [markerEndpoints])).1⟩
  have h3 := h.2.2 1 rfl
  rw [h.1, h3]
  rfl

/-- C5: decoding the embedded revision marker never raises: when the
    marker is absent parsenodes returns an empty node list with no
    match, and when an endpoint identifier fails to resolve it returns
    an empty node list with the match (the marker is then treated as
    absent and processing continues). -/
theorem parsenodes_failure_empty (R : Repo) (desc : String) :
    (searchMarker desc = none → parsenodes R desc = ([], none)) ∧
    ∀ m, searchMarker desc = some m →
      lookupHex R m.id1 = none ∨ lookupHex R (m.id2.getD m.id1) = none →
      parsenodes R desc = ([], some m) := by
  constructor
  · intro h
    simp [parsenodes, h]
  · intro m hm hf
    cases h1 : lookupHex R m.id1 <;>
      cases h2 : lookupHex R (m.id2.getD m.id1) <;>
        simp_all [parsenodes, hm]

/-- C5 witness: descW5 carries a marker whose endpoint cannot resolve in
    the empty repository; parsenodes returns the empty node list and the
    match. -/
theorem parsenodes_failure_empty_witness :
    searchMarker descW5 = some matchW5 ∧
    parsenodes baseRepo descW5 = ([], some matchW5) :=
  ⟨by decide,
   (parsenodes_failure_empty baseRepo descW5).2 matchW5 (by decide)
     (Or.inl (by decide))⟩

/-- C6: the commit created for a pulled changelist has as second parent
    the last changeset of the marker's resolved range when the
    description carries a resolvable marker, and no second parent
    otherwise; the resolved range is in ascending (ancestor-to-
    descendant) revision order. -/
theorem pull_second_parent (R : Repo) (cl : CLDesc) (files : List FileEnt)
    (p4rev : Option Nat) (startrev trimOpt : Bool) :
    (pullStep R cl files p4rev startrev trimOpt).p2 =
      (if (parsenodes R cl.desc).1.isEmpty then none
       else some ((parsenodes R cl.desc).1.getLastD 0))
    ∧ (parsenodes R cl.desc).1.Pairwise (· < ·) := by
  constructor
  · rfl
  · unfold parsenodes
    cases hm : searchMarker cl.desc with
    | none => simp
    | some m =>
      cases h1 : lookupHex R m.id1 <;>
        cases h2 : lookupHex R (m.id2.getD m.id1) <;>
          simp [h1, h2, nodesbetween]
      exact (List.pairwise_lt_range R.numrevs).filter _

lemma statFold_mem (R : Repo) (p4id : Nat) (recs : List (PendEntry × Bool)) :
    ∀ n, n ∈ (statFold R p4id recs).1 ↔
      ∃ e ∈ (statFold R p4id recs).2, n ∈ e.nodes := by
  suffices h : ∀ acc : List Nat × List PendingTuple,
      (∀ n, n ∈ acc.1 ↔ ∃ e ∈ acc.2, n ∈ e.nodes) →
      ∀ n, n ∈ (recs.foldl
          (fun acc db =>
            if db.1.change == p4id then acc
            else
              let nodes := (parsenodes R db.1.desc).1
              (acc.1 ++ nodes,
               acc.2 ++ [⟨db.1.change, db.2, nodes, db.1.desc, db.1.client⟩]))
          acc).1 ↔
        ∃ e ∈ (recs.foldl
          (fun acc db =>
            if db.1.change == p4id then acc
            else
              let nodes := (parsenodes R db.1.desc).1
              (acc.1 ++ nodes,
               acc.2 ++ [⟨db.1.change, db.2, nodes, db.1.desc, db.1.client⟩]))
          acc).2, n ∈ e.nodes by
    exact h ([], []) (by simp)
  induction recs with
  | nil => intro acc hacc n; simpa using hacc n
  | cons d t ih =>
    intro acc hacc n
    simp only [List.foldl_cons]
    by_cases hd : d.1.change == p4id
    · simp only [hd, if_pos]
      exact ih acc hacc n
    · simp only [hd, if_neg, Bool.false_eq_true, not_false_iff]
      refine ih _ ?_ n
      intro k
      constructor
      · intro hk
        rcases List.mem_append.mp hk with hk | hk
        · obtain ⟨e, he, hke⟩ := (hacc k).mp hk
          exact ⟨e, List.mem_append_left _ he, hke⟩
        · exact ⟨_, List.mem_append_right _ (List.mem_singleton_self _), hk⟩
      · rintro ⟨e, he, hke⟩
        rcases List.mem_append.mp he with he | he
        · exact List.mem_append_left _ ((hacc k).mpr ⟨e, he, hke⟩)
        · rw [List.mem_singleton] at he
          subst he
          exact List.mem_append_right _ hke

lemma insertBy_perm (le : α → α → Bool) (a : α) (l : List α) :
    (insertBy le a l).Perm (a :: l) := by
  induction l with
  | nil => rfl
  | cons b t ih =>
    unfold insertBy
    by_cases h : le a b
    · simp [h]
    · simp only [h, Bool.false_eq_true, if_neg, not_false_iff]
      exact (ih.cons b).trans (List.Perm.swap a b t)

lemma sortBy_perm (le : α → α → Bool) (l : List α) : (sortBy le l).Perm l := by
  induction l with
  | nil => rfl
  | cons a t ih => exact (insertBy_perm le a (sortBy le t)).trans (ih.cons a)

/-- C3: after the pending cache is populated, the membership set equals
    the union of the decoded changeset ids of the listed entries: every
    id contained in an entry of getpendinglist answers true to
    getpending, and only those. -/
theorem pending_membership_consistent (R : Repo) (S : P4State)
    (stat : List Nat) (pend : List PendingTuple)
    (h : readp4stat R S = .ok (stat, pend)) :
    getpendinglist R S = .ok pend ∧
    ∀ n, (getpending R S n = .ok true ↔ ∃ e ∈ pend, n ∈ e.nodes) := by
  refine ⟨by simp [getpendinglist, h, Except.map], ?_⟩
  intro n
  have hmem : n ∈ stat ↔ ∃ e ∈ pend, n ∈ e.nodes := by
    unfold readp4stat at h
    cases hf : findExc R false false 0 with
    | error e => rw [hf] at h; exact absurd h (by simp)
    | ok pr =>
      rw [hf] at h
      simp only [Except.ok.injEq, Prod.mk.injEq] at h
      obtain ⟨hst, hpd⟩ := h
      subst hst
      rw [statFold_mem]
      constructor
      · rintro ⟨e, he, hne⟩
        refine ⟨e, ?_, hne⟩
        rw [← hpd]
        exact ((sortBy_perm _ _).mem_iff).mpr he
      · rintro ⟨e, he, hne⟩
        refine ⟨e, ?_, hne⟩
        rw [← hpd] at he
        exact ((sortBy_perm _ _).mem_iff).mp he
  simp [getpending, h, Except.map, decide_eq_true_iff, hmem]

/-- C3 witness: in repoChain4 with the single pending changelist 300
    covering revision 2, revision 2 is listed and reported pending. -/
theorem pending_membership_consistent_witness :
    getpendinglist repoChain4 p4Pend = .ok [pendTuple] ∧
    getpending repoChain4 p4Pend 2 = .ok true := by
  have h := pending_membership_consistent repoChain4 p4Pend [2] [pendTuple]
    (by rfl)
  exact ⟨h.1, (h.2 2).mpr ⟨pendTuple, by simp, by decide⟩⟩

lemma foldParents_spec (N c0 : Nat) (path0 : List Nat)
    (hc0 : c0 < N) (hpath0 : ∀ x ∈ path0, x < N) :
    ∀ pl : List Nat, (∀ p ∈ pl, p < N) →
    ∀ (nx : List (Nat × List Nat)) (sn : List Nat), sn.Nodup →
      (∀ s ∈ sn, s < N) →
      (∀ e ∈ nx, e.1 < N ∧ ∀ x ∈ e.2, x < N) →
      (pl.foldl (fun nxsn p => if p ∈ nxsn.2 then nxsn
          else (nxsn.1 ++ [(p, c0 :: path0)], nxsn.2 ++ [p])) (nx, sn)).2.Nodup ∧
      (∀ s ∈ (pl.foldl (fun nxsn p => if p ∈ nxsn.2 then nxsn
          else (nxsn.1 ++ [(p, c0 :: path0)], nxsn.2 ++ [p])) (nx, sn)).2, s < N) ∧
      (∀ e ∈ (pl.foldl (fun nxsn p => if p ∈ nxsn.2 then nxsn
          else (nxsn.1 ++ [(p, c0 :: path0)], nxsn.2 ++ [p])) (nx, sn)).1,
        e.1 < N ∧ ∀ x ∈ e.2, x < N) ∧
      (pl.foldl (fun nxsn p => if p ∈ nxsn.2 then nxsn
          else (nxsn.1 ++ [(p, c0 :: path0)], nxsn.2 ++ [p])) (nx, sn)).2.length +
        nx.length =
      sn.length +
        (pl.foldl (fun nxsn p => if p ∈ nxsn.2 then nxsn
          else (nxsn.1 ++ [(p, c0 :: path0)], nxsn.2 ++ [p])) (nx, sn)).1.length := by
  intro pl
  induction pl with
  | nil =>
    intro _ nx sn hnd hsn hnx
    exact ⟨hnd, hsn, hnx, rfl⟩
  | cons p t ih =>
    intro hpl nx sn hnd hsn hnx
    simp only [List.foldl_cons]
    by_cases hp : p ∈ sn
    · simp only [hp, if_pos]
      exact ih (fun q hq => hpl q (List.mem_cons_of_mem _ hq)) nx sn hnd hsn hnx
    · simp only [hp, if_neg, not_false_iff]
      have hplt : p < N := hpl p (List.mem_cons_self _ _)
      have hnd' : (sn ++ [p]).Nodup := by
        rw [List.nodup_append]
        exact ⟨hnd, List.nodup_singleton p, by simpa using hp⟩
      have hsn' : ∀ s ∈ sn ++ [p], s < N := by
        intro s hs
        rcases List.mem_append.mp hs with hs | hs
        · exact hsn s hs
        · rw [List.mem_singleton] at hs; subst hs; exact hplt
      have hnx' : ∀ e ∈ nx ++ [(p, c0 :: path0)],
          e.1 < N ∧ ∀ x ∈ e.2, x < N := by
        intro e he
        rcases List.mem_append.mp he with he | he
        · exact hnx e he
        · rw [List.mem_singleton] at he
          subst he
          refine ⟨hplt, ?_⟩
          intro x hx
          rcases List.mem_cons.mp hx with hx | hx
          · subst hx; exact hc0
          · exact hpath0 x hx
      have := ih (fun q hq => hpl q (List.mem_cons_of_mem _ hq))
        (nx ++ [(p, c0 :: path0)]) (sn ++ [p]) hnd' hsn' hnx'
      refine ⟨this.1, this.2.1, this.2.2.1, ?_⟩
      have hlen := this.2.2.2
      simp only [List.length_append, List.length_singleton] at hlen
      omega

lemma descendBase_ok (R : Repo) (N : Nat) :
    ∀ (path : List Nat) (ctx : Nat), ctx < N → (∀ x ∈ path, x < N) →
      (descendBase R ctx path).1 < N ∧ (descendBase R ctx path).2 = [] := by
  intro path
  induction path with
  | nil => intro ctx hc _; exact ⟨hc, rfl⟩
  | cons c rest ih =>
    intro ctx hc hp
    unfold descendBase
    by_cases h : dothgonly R c && !mqBlocked R ctx
    · simp only [h, if_pos]
      exact ih c (hp c (List.mem_cons_self _ _))
        (fun x hx => hp x (List.mem_cons_of_mem _ hx))
    · simp only [h, Bool.false_eq_true, if_neg, not_false_iff]
      exact ⟨hc, trivial⟩

lemma findItem_ok (R : Repo) (base : Bool) (p4rev : Nat) (cp : Nat × List Nat)
    (hcp : cp.1 < R.numrevs ∧ ∀ x ∈ cp.2, x < R.numrevs) :
    ∀ cp', findItem R base p4rev cp = .inr cp' →
      cp'.1 < R.numrevs ∧ ∀ x ∈ cp'.2, x < R.numrevs := by
  intro cp' h
  unfold findItem at h
  cases he : R.extraP4 cp.1 with
  | none =>
    rw [he] at h
    cases h
    exact hcp
  | some p4 =>
    rw [he] at h
    by_cases hb : base
    · simp only [hb, if_pos] at h
      split at h
      · cases h
      · cases h
        have := descendBase_ok R R.numrevs cp.2 cp.1 hcp.1 hcp.2
        refine ⟨this.1, ?_⟩
        rw [this.2]
        intro x hx
        cases hx
    · simp only [hb, Bool.false_eq_true, if_neg, not_false_iff] at h
      split at h
      · cases h
      · cases h
        exact hcp

lemma findPass_spec (R : Repo) (base : Bool) (p4rev : Nat)
    (hpar : ∀ n, n < R.numrevs → ∀ p ∈ R.parents n, p < R.numrevs) :
    ∀ (cur nx : List (Nat × List Nat)) (sn : List Nat),
      (∀ e ∈ cur, e.1 < R.numrevs ∧ ∀ x ∈ e.2, x < R.numrevs) →
      sn.Nodup → (∀ s ∈ sn, s < R.numrevs) →
      (∀ e ∈ nx, e.1 < R.numrevs ∧ ∀ x ∈ e.2, x < R.numrevs) →
      ∀ nx' sn', findPass R base p4rev cur nx sn = .inr (nx', sn') →
        sn'.Nodup ∧ (∀ s ∈ sn', s < R.numrevs) ∧
        (∀ e ∈ nx', e.1 < R.numrevs ∧ ∀ x ∈ e.2, x < R.numrevs) ∧
        sn'.length + nx.length = sn.length + nx'.length := by
  intro cur
  induction cur with
  | nil =>
    intro nx sn _ hnd hsn hnx nx' sn' h
    unfold findPass at h
    cases h
    exact ⟨hnd, hsn, hnx, rfl⟩
  | cons cp rest ih =>
    intro nx sn hcur hnd hsn hnx nx' sn' h
    unfold findPass at h
    cases hfi : findItem R base p4rev cp with
    | inl r => rw [hfi] at h; cases h
    | inr cp' =>
      rw [hfi] at h
      simp only at h
      have hcp' := findItem_ok R base p4rev cp (hcur cp (List.mem_cons_self _ _)) cp' hfi
      obtain ⟨h1, h2, h3, h4⟩ := foldParents_spec R.numrevs cp'.1 cp'.2 hcp'.1 hcp'.2
        (R.parents cp'.1) (hpar cp'.1 hcp'.1) nx sn hnd hsn hnx
      have hrec := ih (addParents R cp' (nx, sn)).1 (addParents R cp' (nx, sn)).2
        (fun e he => hcur e (List.mem_cons_of_mem _ he)) h1 h2 h3 nx' sn' h
      refine ⟨hrec.1, hrec.2.1, hrec.2.2.1, ?_⟩
      have h5 := hrec.2.2.2
      have h4' : (addParents R cp' (nx, sn)).2.length + nx.length =
          sn.length + (addParents R cp' (nx, sn)).1.length := h4
      omega

lemma nodup_lt_length_le (sn : List Nat) (N : Nat) (h1 : sn.Nodup)
    (h2 : ∀ s ∈ sn, s < N) : sn.length ≤ N := by
  have hsub : sn.toFinset ⊆ Finset.range N := by
    intro a ha
    rw [List.mem_toFinset] at ha
    exact Finset.mem_range.mpr (h2 a ha)
  have := Finset.card_le_card hsub
  rwa [List.toFinset_card_of_nodup h1, Finset.card_range] at this

lemma findLoop_spec (R : Repo) (base : Bool) (p4rev : Nat)
    (hpar : ∀ n, n < R.numrevs → ∀ p ∈ R.parents n, p < R.numrevs) :
    ∀ (fuel : Nat) (cur : List (Nat × List Nat)) (sn : List Nat),
      (∀ e ∈ cur, e.1 < R.numrevs ∧ ∀ x ∈ e.2, x < R.numrevs) →
      sn.Nodup → (∀ s ∈ sn, s < R.numrevs) →
      R.numrevs + 2 ≤ fuel + sn.length →
      (findLoop R base p4rev fuel cur sn).isSome = true := by
  intro fuel
  induction fuel with
  | zero =>
    intro cur sn _ hnd hsn hfuel
    have := nodup_lt_length_le sn R.numrevs hnd hsn
    omega
  | succ f ih =>
    intro cur sn hcur hnd hsn hfuel
    cases cur with
    | nil => simp [findLoop]
    | cons cp rest =>
      cases hfp : findPass R base p4rev (cp :: rest) [] sn with
      | inl r => simp [findLoop, hfp]
      | inr nxsn =>
        have hspec := findPass_spec R base p4rev hpar (cp :: rest) [] sn hcur hnd
          hsn (by simp) nxsn.1 nxsn.2 (by rw [hfp])
        rw [findLoop.eq_def]
        simp only [hfp]
        by_cases hnil : nxsn.1 = []
        · rw [hnil]
          simp [findLoop]
        · refine ih nxsn.1 nxsn.2 hspec.2.2.1 hspec.1 hspec.2.1 ?_
          have hlen := hspec.2.2.2
          have h1 : 0 < nxsn.1.length := List.length_pos.mpr hnil
          simp only [List.length_nil] at hlen
          omega

/-- C8: the sync-point search terminates on every finite changeset
    graph: since a changeset is appended to the frontier only when it is
    not in the seen set, fuel numrevs + 2 suffices for the breadth-first
    walk, and find never returns the out-of-fuel sentinel — including on
    graphs with merge changesets sharing ancestors. -/
theorem find_terminates (R : Repo) (base : Bool) (p4rev : Nat)
    (hpar : ∀ n, n < R.numrevs → ∀ p ∈ R.parents n, p < R.numrevs)
    (hstart : R.defaultHead < R.numrevs) :
    (findLoop R base p4rev (R.numrevs + 2) [(R.defaultHead, [])] []).isSome = true
    ∧ findExc R base true p4rev ≠ .error .outOfFuel
    ∧ findExc R base false p4rev ≠ .error .outOfFuel := by
  have h := findLoop_spec R base p4rev hpar (R.numrevs + 2) [(R.defaultHead, [])]
    [] (by intro e he; rw [List.mem_singleton] at he; subst he; exact ⟨hstart, by simp⟩)
    List.nodup_nil (by simp) (by omega)
  obtain ⟨v, hv⟩ := Option.isSome_iff_exists.mp h
  refine ⟨h, ?_, ?_⟩ <;>
    · unfold findExc
      rw [hv]
      cases v with
      | none => simp
      | some hit => simp

/-- C8 witness: on the merge diamond repoMrg (revisions 1 and 2 share
    ancestor 0, merged in 3) the walk terminates with the given fuel. -/
theorem find_terminates_witness :
    (findLoop repoMrg true 0 (repoMrg.numrevs + 2)
        [(repoMrg.defaultHead, [])] []).isSome = true
    ∧ findExc repoMrg true true 0 ≠ .error .outOfFuel
    ∧ findExc repoMrg true false 0 ≠ .error .outOfFuel :=
  find_terminates repoMrg true 0 (by decide) (by decide)

lemma trimEnds_subset (p : Nat → Bool) (l : List Nat) :
    ∀ x ∈ trimEnds p l, x ∈ l := by
  intro x hx
  unfold trimEnds at hx
  rw [List.mem_reverse] at hx
  have hx2 := (List.dropWhile_sublist _).subset hx
  rw [List.mem_reverse] at hx2
  exact (List.dropWhile_sublist _).subset hx2

lemma trimEnds_nil_of_all (p : Nat → Bool) (l : List Nat)
    (h : ∀ x ∈ l, p x = true) : trimEnds p l = [] := by
  unfold trimEnds
  have h1 : l.dropWhile p = [] := List.dropWhile_eq_nil_iff.mpr (by simpa using h)
  rw [h1]
  simp

/-- C1: a push invoked without force aborts with an error when any
    changeset remaining after end-trimming is already recorded
    pending/submitted or has a child carrying the p4 extra-attribute;
    the plan phase has issued only read-only depot commands at that
    point, and the modelled depot state is unchanged. -/
theorem pushcommon_conflict_aborts (R : Repo) (S : P4State) (o : PushOpts)
    (stat : List Nat) (pend : List PendingTuple) (p4rev : Option Nat)
    (p4id n : Nat) (mv cp : Bool)
    (hforce : o.force = false)
    (hfind : findExc R true true 0 = .ok (p4rev, p4id))
    (hstat : readp4stat R S = .ok (stat, pend))
    (hn : n ∈ trimEnds (fun m => decide (m ∈ stat)) (candidateNodes R o p4rev p4id))
    (hbad : n ∈ stat ∨ hasP4Child R n = true) :
    (pushcommon R S o).2 = .error .alreadyInP4
    ∧ pushModel R S o mv cp = (S, .aborted .alreadyInP4)
    ∧ ((pushcommon R S o).1.all (fun c => !c.mutating)) = true := by
  have hxmem : n ∈ candidateNodes R o p4rev p4id := trimEnds_subset _ _ n hn
  have hxne : (candidateNodes R o p4rev p4id).isEmpty = false := by
    cases hc : candidateNodes R o p4rev p4id with
    | nil => rw [hc] at hxmem; cases hxmem
    | cons a t => simp
  have hany : (trimEnds (fun m => decide (m ∈ stat))
      (candidateNodes R o p4rev p4id)).any
      (fun k => decide (k ∈ stat) || hasP4Child R k) = true := by
    refine List.any_eq_true.mpr ⟨n, hn, ?_⟩
    rcases hbad with h | h
    · simp [h]
    · simp [h]
  have hpc : pushcommon R S o = (readCmds p4id, .error .alreadyInP4) := by
    unfold pushcommon
    rw [hforce]
    simp only [Bool.not_false]
    rw [hfind]
    simp only [Bool.false_eq_true, if_neg, not_false_iff]
    unfold pushcommonNoForce
    rw [hxne]
    simp only [Bool.false_eq_true, if_neg, not_false_iff]
    rw [hstat]
    simp only [hany, if_pos]
  refine ⟨by rw [hpc], ?_, by rw [hpc]; simp [readCmds, P4Cmd.mutating]⟩
  unfold pushModel
  rw [hpc]

/-- C1 witness: in repoChain4, changeset 2 is covered by pending
    changelist 300; the non-forced push of 1..3 aborts in the plan
    phase having issued only the two read queries, leaving the depot
    state unchanged. -/
theorem pushcommon_conflict_aborts_witness :
    (pushcommon repoChain4 p4Pend optsNF).2 = .error .alreadyInP4
    ∧ pushModel repoChain4 p4Pend optsNF false false =
        (p4Pend, .aborted .alreadyInP4)
    ∧ ((pushcommon repoChain4 p4Pend optsNF).1.all (fun c => !c.mutating)) = true :=
  pushcommon_conflict_aborts repoChain4 p4Pend optsNF [2] [pendTuple] (some 0)
    100 2 false false rfl (by rfl) (by rfl) (by decide) (Or.inl (by decide))

lemma planTail_plan (R : Repo) (o : PushOpts) (p4rev : Option Nat) (p4id : Nat)
    (nodes : List Nat) (cc : Option Nat × Nat) (plan : Plan)
    (h : planTail R o p4rev p4id nodes cc = .ok (some plan)) :
    ∀ fg ∈ plan.mod ++ plan.add ++ plan.rem, strStartsWith fg.1 ".hg" = false := by
  unfold planTail at h
  by_cases hne : nodes.isEmpty
  · rw [if_pos hne] at h
    simp at h
  · rw [if_neg hne] at h
    simp only at h
    split_ifs at h with h1 h2
    · simp at h
    · rw [Except.ok.injEq, Option.some.injEq] at h
      subst h
      intro fg hfg
      rcases List.mem_append.mp hfg with hfg | hfg
      · rcases List.mem_append.mp hfg with hfg | hfg
        · have := (List.mem_filter.mp hfg).2
          simpa using this
        · have := (List.mem_filter.mp hfg).2
          simpa using this
      · have := (List.mem_filter.mp hfg).2
        simpa using this

lemma planTail_allhg (R : Repo) (o : PushOpts) (p4rev : Option Nat) (p4id : Nat)
    (nodes : List Nat) (cc : Option Nat × Nat)
    (hAll : ∀ (c1 : Option Nat) (c2 : Nat) (f : String),
      f ∈ R.statusMod c1 c2 ++ R.statusAdd c1 c2 ++ R.statusRem c1 c2 →
      strStartsWith f ".hg" = true) :
    ∀ r, planTail R o p4rev p4id nodes cc = .ok r → r = none := by
  intro r h
  unfold planTail at h
  by_cases hne : nodes.isEmpty
  · rw [if_pos hne] at h
    rw [Except.ok.injEq] at h
    exact h.symm
  · rw [if_neg hne] at h
    simp only at h
    have hm : ((R.statusMod cc.1 cc.2).map
        (fun f => (f, R.flagsOf (some cc.2) f))).filter
          (fun fg => !strStartsWith fg.1 ".hg") = [] := by
      rw [List.filter_eq_nil_iff]
      intro a ha
      obtain ⟨f, hf, rfl⟩ := List.mem_map.mp ha
      simp [hAll cc.1 cc.2 f (List.mem_append_left _ (List.mem_append_left _ hf))]
    have ha : ((R.statusAdd cc.1 cc.2).map
        (fun f => (f, R.flagsOf (some cc.2) f))).filter
          (fun fg => !strStartsWith fg.1 ".hg") = [] := by
      rw [List.filter_eq_nil_iff]
      intro a ha
      obtain ⟨f, hf, rfl⟩ := List.mem_map.mp ha
      simp [hAll cc.1 cc.2 f (List.mem_append_left _ (List.mem_append_right _ hf))]
    have hr : ((R.statusRem cc.1 cc.2).map (fun f => (f, ""))).filter
          (fun fg => !strStartsWith fg.1 ".hg") = [] := by
      rw [List.filter_eq_nil_iff]
      intro a ha
      obtain ⟨f, hf, rfl⟩ := List.mem_map.mp ha
      simp [hAll cc.1 cc.2 f (List.mem_append_right _ hf)]
    rw [hm, ha, hr] at h
    simp at h
    exact h.symm

/-- C10: files whose repository path starts with .hg are removed from
    the modified, added and removed lists before the plan is produced,
    so no plan ever stages such a file; and when the whole delta
    consists of .hg files, any non-aborting run of _pushcommon reports
    no changes. -/
theorem pushcommon_hg_filter (R : Repo) (S : P4State) (o : PushOpts) :
    (∀ plan, (pushcommon R S o).2 = .ok (some plan) →
      ∀ fg ∈ plan.mod ++ plan.add ++ plan.rem, strStartsWith fg.1 ".hg" = false)
    ∧ ((∀ (c1 : Option Nat) (c2 : Nat) (f : String),
          f ∈ R.statusMod c1 c2 ++ R.statusAdd c1 c2 ++ R.statusRem c1 c2 →
          strStartsWith f ".hg" = true) →
        ∀ r, (pushcommon R S o).2 = .ok r → r = none) := by
  constructor
  · intro plan h
    unfold pushcommon at h
    cases hf : findExc R true (!o.force) 0 with
    | error e => rw [hf] at h; simp at h
    | ok pr =>
      rw [hf] at h
      simp only at h
      by_cases hforce : o.force
      · rw [if_pos hforce] at h
        exact planTail_plan _ _ _ _ _ _ _ h
      · rw [if_neg hforce] at h
        unfold pushcommonNoForce at h
        by_cases hx : (candidateNodes R o pr.1 pr.2).isEmpty
        · rw [if_pos hx] at h
          simp at h
        · rw [if_neg hx] at h
          cases hs : readp4stat R S with
          | error e => rw [hs] at h; simp at h
          | ok sp =>
            rw [hs] at h
            simp only at h
            split_ifs at h with h1 h2
            all_goals first
              | exact planTail_plan _ _ _ _ _ _ _ h
              | simp at h
  · intro hAll r h
    unfold pushcommon at h
    cases hf : findExc R true (!o.force) 0 with
    | error e => rw [hf] at h; simp at h
    | ok pr =>
      rw [hf] at h
      simp only at h
      by_cases hforce : o.force
      · rw [if_pos hforce] at h
        exact planTail_allhg _ _ _ _ _ _ hAll r h
      · rw [if_neg hforce] at h
        unfold pushcommonNoForce at h
        by_cases hx : (candidateNodes R o pr.1 pr.2).isEmpty
        · rw [if_pos hx] at h
          rw [Except.ok.injEq] at h
          exact h.symm
        · rw [if_neg hx] at h
          cases hs : readp4stat R S with
          | error e => rw [hs] at h; simp at h
          | ok sp =>
            rw [hs] at h
            simp only at h
            split_ifs at h with h1 h2
            all_goals first
              | exact planTail_allhg _ _ _ _ _ _ hAll r h
              | simp at h

/-- C10 witness: on repoMix (delta .hgtags plus f) the produced plan
    stages no .hg file; on repoHg (delta of .hg files only) the push
    plan reports no changes. -/
theorem pushcommon_hg_filter_witness :
    (planMix.mod ++ planMix.add ++ planMix.rem).all
        (fun fg => !strStartsWith fg.1 ".hg") = true
    ∧ (pushcommon repoHg p4Empty optsNF).2 = .ok none := by
  constructor
  · refine List.all_eq_true.mpr ?_
    intro fg hfg
    have := (pushcommon_hg_filter repoMix p4Empty optsNF).1 planMix (by rfl) fg hfg
    simpa using this
  · have hall : ∀ (c1 : Option Nat) (c2 : Nat) (f : String),
        f ∈ repoHg.statusMod c1 c2 ++ repoHg.statusAdd c1 c2 ++
          repoHg.statusRem c1 c2 →
        strStartsWith f ".hg" = true := by
      intro c1 c2 f hf
      have hf' : f = ".hgtags" := by
        simpa [repoHg, repoChain4, baseRepo] using hf
      subst hf'
      decide
    have h2 := (pushcommon_hg_filter repoHg p4Empty optsNF).2 hall
    obtain ⟨r, hr⟩ : ∃ r, (pushcommon repoHg p4Empty optsNF).2 = Except.ok r :=
      ⟨none, by rfl⟩
    rw [h2 r hr] at hr
    exact hr

set_option maxRecDepth 4000 in
/-- C2 counterexample: on the merge diamond repoMrg the first push
    folds revisions 1, 2, 3 into changelist 200, but its marker records
    only the endpoints 1:3, whose resolved range omits the sibling 2;
    an immediate second push therefore does not report "no changes
    found" — it creates changelist 201. -/
theorem push_idempotent_cx :
    (pushModel repoMrg p4Empty optsNF false false).2 = .pushed 200
    ∧ (pushModel repoMrg (pushModel repoMrg p4Empty optsNF false false).1
        optsNF false false).2 = .pushed 201
    ∧ PushOutcome.pushed 201 ≠ PushOutcome.noChanges := by
  refine ⟨by decide, by decide, by decide⟩

/-- C2 (amended): changesets already recorded pending/submitted are
    trimmed from both ends of the candidate range, and an empty range
    reports "no changes found" without touching any changelist; hence a
    second push immediately after a first reports "no changes found"
    provided every changeset of the candidate range is recorded in the
    pending state after the first push (as holds when the pushed range
    is linear, but not across merges, whose marker keeps only the two
    endpoints). -/
theorem push_idempotent_amended (R : Repo) (S S' : P4State) (o : PushOpts)
    (mv cp : Bool) (u : Nat) (p4rev : Option Nat) (p4id : Nat)
    (stat' : List Nat) (pend' : List PendingTuple)
    (hforce : o.force = false)
    (h1 : pushModel R S o mv cp = (S', .pushed u))
    (hfind : findExc R true true 0 = .ok (p4rev, p4id))
    (hstat : readp4stat R S' = .ok (stat', pend'))
    (hcov : ∀ n ∈ candidateNodes R o p4rev p4id, n ∈ stat') :
    pushModel R S' o mv cp = (S', .noChanges) := by
  have hpc : (pushcommon R S' o).2 = .ok none := by
    unfold pushcommon
    rw [hforce]
    simp only [Bool.not_false]
    rw [hfind]
    simp only [Bool.false_eq_true, if_neg, not_false_iff]
    unfold pushcommonNoForce
    by_cases hx : (candidateNodes R o p4rev p4id).isEmpty
    · rw [if_pos hx]
    · rw [if_neg hx]
      rw [hstat]
      simp only
      have htrim : trimEnds (fun n => decide (n ∈ stat'))
          (candidateNodes R o p4rev p4id) = [] :=
        trimEnds_nil_of_all _ _ (fun x hx' => by simp [hcov x hx'])
      rw [htrim]
      simp [planTail]
  unfold pushModel
  rw [hpc]

/-- C2 witness: on the linear chain repoLin the first push records
    changelist 200 whose marker range 1:2 covers the whole candidate
    range, and the second push reports no changes. -/
theorem push_idempotent_amended_witness :
    pushModel repoLin p4AfterLin optsNF false false = (p4AfterLin, .noChanges) :=
  push_idempotent_amended repoLin p4Empty p4AfterLin optsNF false false 200
    (some 0) 100 [1, 2] [⟨200, false, [1, 2], descLin, "c"⟩] rfl (by rfl)
    (by rfl) (by rfl) (by decide)

lemma foldl_inv_mem {α σ : Type} :
    ∀ (l : List α) (step : σ → α → σ) (P : σ → Prop),
      (∀ s a, a ∈ l → P s → P (step s a)) → ∀ s, P s → P (l.foldl step s) := by
  intro l
  induction l with
  | nil => intro _ _ _ s hs; exact hs
  | cons a t ih =>
    intro step P hstep s hs
    exact ih step P (fun s' a' ha' hp => hstep s' a' (List.mem_cons_of_mem _ ha') hp)
      _ (hstep s a (List.mem_cons_self _ _) hs)

lemma lookupRems_setFalse_ne (k r : String) (h : k ≠ r) :
    ∀ rems, lookupRems (setRemsFalse rems k) r = lookupRems rems r := by
  intro rems
  induction rems with
  | nil => rfl
  | cons e t ih =>
    by_cases hek : e.1 = k <;> by_cases her : e.1 = r <;>
      simp_all [setRemsFalse, lookupRems]

lemma lookupRems_setFalse_self (k : String) :
    ∀ rems b, lookupRems rems k = some b →
      lookupRems (setRemsFalse rems k) k = some false := by
  intro rems
  induction rems with
  | nil => intro b h; cases h
  | cons e t ih =>
    intro b h
    by_cases hek : e.1 = k
    · simp_all [setRemsFalse, lookupRems]
    · simp only [setRemsFalse, lookupRems] at h ⊢
      have hek' : (e.1 == k) = false := by simp [hek]
      rw [hek'] at h
      simp only [Bool.false_eq_true, if_neg, not_false_iff] at h
      have hif : ((if (e.1 == k) = true then (e.1, false) else e).1 == k) = false := by
        rw [hek']
        simp [hek]
      rw [hif]
      simp only [Bool.false_eq_true, if_neg, not_false_iff]
      exact ih b h

lemma lookupRems_init_true (r : String) :
    ∀ remL : List (String × String), r ∈ remL.map Prod.fst →
      lookupRems (remL.map (fun x => (x.1, true))) r = some true := by
  intro remL
  induction remL with
  | nil => intro h; cases h
  | cons e t ih =>
    intro h
    by_cases her : e.1 = r
    · simp_all [lookupRems]
    · simp only [List.map_cons, lookupRems]
      have her' : (e.1 == r) = false := by simp [her]
      rw [her']
      simp only [Bool.false_eq_true, if_neg, not_false_iff]
      refine ih ?_
      rcases List.mem_map.mp h with ⟨x, hx, hxr⟩
      rcases List.mem_cons.mp hx with hx | hx
      · exact absurd (hx ▸ hxr) her
      · exact List.mem_map.mpr ⟨x, hx, hxr⟩

lemma classStep_moves_mono (cpy : List (String × String × Bool)) (mv cp : Bool)
    (st : ClassState) (fg : String × String) :
    ∀ x ∈ st.moves, x ∈ (classStep cpy mv cp st fg).moves := by
  intro x hx
  unfold classStep
  cases h : lookupCpy cpy fg.1 with
  | none => simpa using hx
  | some rc =>
    simp only
    split_ifs <;> simp [hx]

lemma classStep_ntg_mono (cpy : List (String × String × Bool)) (mv cp : Bool)
    (st : ClassState) (fg : String × String) :
    ∀ x ∈ st.ntg, x ∈ (classStep cpy mv cp st fg).ntg := by
  intro x hx
  unfold classStep
  cases h : lookupCpy cpy fg.1 with
  | none => simpa using hx
  | some rc =>
    simp only
    split_ifs <;> simp [hx]

lemma classStep_add2_inv (cpy : List (String × String × Bool)) (mv cp : Bool)
    (st : ClassState) (fg : String × String)
    (hst : ∀ x ∈ st.add2, lookupCpy cpy x.1 = none) :
    ∀ x ∈ (classStep cpy mv cp st fg).add2, lookupCpy cpy x.1 = none := by
  intro x hx
  unfold classStep at hx
  cases h : lookupCpy cpy fg.1 with
  | none =>
    rw [h] at hx
    simp only [List.mem_append, List.mem_singleton] at hx
    rcases hx with hx | hx
    · exact hst x hx
    · subst hx; exact h
  | some rc =>
    rw [h] at hx
    simp only at hx
    split_ifs at hx <;> exact hst x (by simpa using hx)

lemma classStep_rems_ne (cpy : List (String × String × Bool)) (mv cp : Bool)
    (st : ClassState) (fg : String × String) (r : String)
    (hsrc : ∀ pq, lookupCpy cpy fg.1 = some pq → pq.1 ≠ r) :
    lookupRems (classStep cpy mv cp st fg).rems r = lookupRems st.rems r := by
  unfold classStep
  cases h : lookupCpy cpy fg.1 with
  | none => rfl
  | some rc =>
    simp only
    split_ifs <;> simp [lookupRems_setFalse_ne rc.1 r (hsrc rc h)]

lemma classStep_rems_false (cpy : List (String × String × Bool)) (mv cp : Bool)
    (st : ClassState) (fg : String × String) (r : String)
    (hst : lookupRems st.rems r = some false) :
    lookupRems (classStep cpy mv cp st fg).rems r = some false := by
  unfold classStep
  cases h : lookupCpy cpy fg.1 with
  | none => exact hst
  | some rc =>
    simp only
    by_cases hrcr : rc.1 = r
    · have : (lookupRems st.rems rc.1).getD false = false := by
        rw [hrcr, hst]; rfl
      split_ifs with h1 h2 <;> simp_all
    · split_ifs <;> simp [lookupRems_setFalse_ne rc.1 r hrcr, hst]

lemma classStep_move_hit (cpy : List (String × String × Bool)) (cp : Bool)
    (st : ClassState) (fg : String × String) (rc : String × Bool)
    (h : lookupCpy cpy fg.1 = some rc)
    (htrue : lookupRems st.rems rc.1 = some true) :
    (rc.1, fg.1, fg.2) ∈ (classStep cpy true cp st fg).moves ∧
    lookupRems (classStep cpy true cp st fg).rems rc.1 = some false := by
  unfold classStep
  rw [h]
  simp only
  have hcond : (true && (lookupRems st.rems rc.1).getD false) = true := by
    rw [htrue]; rfl
  rw [if_pos hcond]
  have hset := lookupRems_setFalse_self rc.1 st.rems true htrue
  split_ifs <;> exact ⟨by simp, hset⟩

lemma classStep_ntg_hit (cpy : List (String × String × Bool)) (st : ClassState)
    (fg : String × String) (rc : String × Bool)
    (h : lookupCpy cpy fg.1 = some rc) :
    (rc.1, fg.1) ∈ (classStep cpy false false st fg).ntg := by
  unfold classStep
  rw [h]
  simp only [Bool.false_and, Bool.false_eq_true, if_neg, not_false_iff]
  split_ifs <;> simp

/-- C9 counterexample: with move and copy both available, two added
    files b and c both traced to the removed source a, the claim says
    each pair is classified as a move; the code consumes a with the
    first destination b, and c is not classified as a move. -/
theorem classify_move_cx :
    (("c", "") ∈ [("b", ""), ("c", "")]
      ∧ lookupCpy [("b", "a", false), ("c", "a", false)] "c" = some ("a", false)
      ∧ "a" ∈ ([("a", "")] : List (String × String)).map Prod.fst)
    ∧ (classifyAdds [("b", ""), ("c", "")] [("a", "")]
        [("b", "a", false), ("c", "a", false)] true true).1.moves = [("a", "b", "")]
    ∧ ((classifyAdds [("b", ""), ("c", "")] [("a", "")]
        [("b", "a", false), ("c", "a", false)] true true).1.moves.all
          (fun m => !(m.2.1 == "c"))) = true := by
  refine ⟨by decide, by decide, by decide⟩

/-- C9 (amended): an added file reported copied from a source is
    classified as an integrate with that source and destination when
    both move and copy are disabled — never as a plain addition; and
    when move is supported and the source is simultaneously removed, the
    first such destination processed becomes a move and the source is
    excluded from the delete list (destinations processed later that
    copy from the same, already consumed, source fall back to
    copy/integrate). -/
theorem classify_amended (addL remL : List (String × String))
    (cpy : List (String × String × Bool)) (mv cp : Bool)
    (f g r : String) (chg : Bool) (l1 l2 : List (String × String)) :
    ((mv = false) → (cp = false) → (f, g) ∈ addL →
      lookupCpy cpy f = some (r, chg) →
      (r, f) ∈ (classifyAdds addL remL cpy mv cp).1.ntg ∧
      ∀ x ∈ (classifyAdds addL remL cpy mv cp).1.add2, x.1 ≠ f)
    ∧ ((mv = true) → addL = l1 ++ (f, g) :: l2 →
      lookupCpy cpy f = some (r, chg) →
      (∀ e ∈ l1, ∀ pq, lookupCpy cpy e.1 = some pq → pq.1 ≠ r) →
      r ∈ remL.map Prod.fst →
      (r, f, g) ∈ (classifyAdds addL remL cpy mv cp).1.moves ∧
      r ∉ ((classifyAdds addL remL cpy mv cp).2.map Prod.fst)) := by
  constructor
  · intro hmv hcp hmem hl
    subst hmv
    subst hcp
    obtain ⟨u, v, huv⟩ := List.append_of_mem hmem
    subst huv
    constructor
    · show (r, f) ∈ ((u ++ (f, g) :: v).foldl (classStep cpy false false) _).ntg
      rw [List.foldl_append, List.foldl_cons]
      refine foldl_inv_mem v (classStep cpy false false)
        (fun s => (r, f) ∈ s.ntg)
        (fun s a _ hp => classStep_ntg_mono cpy false false s a _ hp) _ ?_
      have := classStep_ntg_hit cpy
        (u.foldl (classStep cpy false false)
          (⟨[], [], [], [], [], remL.map (fun x => (x.1, true))⟩ : ClassState))
        (f, g) (r, chg) hl
      simpa using this
    · intro x hx hxf
      have hinv : ∀ y ∈ (classifyAdds (u ++ (f, g) :: v) remL cpy false false).1.add2,
          lookupCpy cpy y.1 = none := by
        refine foldl_inv_mem (u ++ (f, g) :: v) (classStep cpy false false)
          (fun s => ∀ y ∈ s.add2, lookupCpy cpy y.1 = none)
          (fun s a _ hp => classStep_add2_inv cpy false false s a hp) _ ?_
        intro y hy
        cases hy
      have := hinv x hx
      rw [hxf, hl] at this
      cases this
  · intro hmv haddL hl hl1 hrrem
    subst hmv
    subst haddL
    have hst1 : lookupRems ((l1.foldl (classStep cpy true cp)
        (⟨[], [], [], [], [], remL.map (fun x => (x.1, true))⟩ : ClassState)).rems)
        r = some true := by
      refine foldl_inv_mem l1 (classStep cpy true cp)
        (fun s => lookupRems s.rems r = some true)
        (fun s a ha hp => ?_) _ ?_
      · show lookupRems (classStep cpy true cp s a).rems r = some true
        rw [classStep_rems_ne cpy true cp s a r (fun pq hpq => hl1 a ha pq hpq)]
        exact hp
      · exact lookupRems_init_true r remL hrrem
    have hhit := classStep_move_hit cpy cp
      (l1.foldl (classStep cpy true cp)
        (⟨[], [], [], [], [], remL.map (fun x => (x.1, true))⟩ : ClassState))
      (f, g) (r, chg) hl hst1
    have hfold : ∀ st : ClassState,
        ((r, f, g) ∈ st.moves ∧ lookupRems st.rems r = some false) →
        ((r, f, g) ∈ (l2.foldl (classStep cpy true cp) st).moves ∧
          lookupRems (l2.foldl (classStep cpy true cp) st).rems r = some false) := by
      intro st hst
      refine foldl_inv_mem l2 (classStep cpy true cp)
        (fun s => (r, f, g) ∈ s.moves ∧ lookupRems s.rems r = some false)
        (fun s a _ hp =>
          ⟨classStep_moves_mono cpy true cp s a _ hp.1,
           classStep_rems_false cpy true cp s a r hp.2⟩) _ hst
    have hfinal := hfold _ hhit
    have heq : (classifyAdds (l1 ++ (f, g) :: l2) remL cpy true cp).1 =
        l2.foldl (classStep cpy true cp)
          (classStep cpy true cp
            (l1.foldl (classStep cpy true cp)
              (⟨[], [], [], [], [], remL.map (fun x => (x.1, true))⟩ : ClassState))
            (f, g)) := by
      show (l1 ++ (f, g) :: l2).foldl (classStep cpy true cp) _ = _
      rw [List.foldl_append, List.foldl_cons]
    constructor
    · rw [heq]
      exact hfinal.1
    · intro hmem'
      obtain ⟨x, hx, hx1⟩ := List.mem_map.mp hmem'
      have hx' : x ∈ remL.filter
          (fun rr => (lookupRems ((classifyAdds (l1 ++ (f, g) :: l2) remL cpy
            true cp).1.rems) rr.1).getD false) := hx
      have hcond := (List.mem_filter.mp hx').2
      rw [hx1] at hcond
      rw [heq] at hcond
      rw [hfinal.2] at hcond
      cases hcond

/-- C9 witness: b renamed from the removed a (content unchanged): with
    move and copy disabled, the pair becomes an integrate of a into b
    and b is not a plain addition; with move enabled, it becomes a move
    and a leaves the delete list. -/
theorem classify_amended_witness :
    ("a", "b") ∈ (classifyAdds [("b", "x")] [("a", "")]
        [("b", "a", false)] false false).1.ntg
    ∧ ((classifyAdds [("b", "x")] [("a", "")]
        [("b", "a", false)] false false).1.add2.all
          (fun x => !(x.1 == "b"))) = true
    ∧ ("a", "b", "x") ∈ (classifyAdds [("b", "x")] [("a", "")]
        [("b", "a", false)] true false).1.moves
    ∧ "a" ∉ ((classifyAdds [("b", "x")] [("a", "")]
        [("b", "a", false)] true false).2.map Prod.fst) := by
  have hA := (classify_amended [("b", "x")] [("a", "")] [("b", "a", false)]
      false false "b" "x" "a" false [] []).1 rfl rfl (by decide) (by decide)
  have hB := (classify_amended [("b", "x")] [("a", "")] [("b", "a", false)]
      true false "b" "x" "a" false [] []).2 rfl rfl (by decide)
      (fun e he => absurd he (List.not_mem_nil e)) (by decide)
  refine ⟨hA.1, ?_, hB.1, hB.2⟩
  refine List.all_eq_true.mpr ?_
  intro x hx
  simpa using hA.2 x hx
